import Mathlib

/-!
Verification of the multi-version aggregation and recursive content-query
engine of the mcp-storyblok-server repository.

The definitions below are a shallow embedding of the TypeScript source:

* `J` models JavaScript JSON-like values as they appear in story `content`
  trees.  JavaScript arrays can additionally carry non-index string
  properties (plain assignment `arr[k] = v` with a non-index key creates
  one), so `J.arr` carries both an element list and a property list.
* `getParts` / `setParts` embed the `getValueByPath` / `setByPath` helpers
  of `src/tools/stories.ts` (duplicated in `src/tools/components.ts`).
* Later sections embed the pagination loop of `get-component-usage`, the
  draft/published merge, the schema validator, and the two recursive tree
  searches (`findComponentInValue`, `recursiveDeepSearch`).

Stateful JavaScript (in-place mutation of fresh structures) is translated
to explicit state passing; machine integers are modelled as `Nat` with the
JavaScript array-index bound (`2 ^ 32 - 1`) made explicit where it matters.
-/

/-- JavaScript value as used by the story-content query engine.  `undef`
is JavaScript `undefined` (returned for absent properties and array
holes).  An array carries its element list and, separately, any non-index
string properties that were assigned onto it. -/
inductive J where
  | undef : J
  | null : J
  | bool (b : Bool) : J
  | num (n : Int) : J
  | str (s : String) : J
  | arr (elems : List J) (props : List (String × J)) : J
  | obj (fields : List (String × J)) : J
deriving Repr

/-- First-match association-list lookup: JavaScript own-property read. -/
def lookupStr (l : List (String × J)) (k : String) : Option J :=
  match l with
  | [] => none
  | (k', v) :: rest => if k' = k then some v else lookupStr rest k

/-- JavaScript property write on a plain object: an existing key is
updated in place (keeping its position), a new key is appended. -/
def setAssoc (l : List (String × J)) (k : String) (v : J) : List (String × J) :=
  match l with
  | [] => [(k, v)]
  | (k', v') :: rest =>
    if k' = k then (k', v) :: rest else (k', v') :: setAssoc rest k v

/-- JavaScript array element write `a[i] = v`: in-bounds indices are
replaced; writing past the end grows the array to length `i + 1`,
filling the gap with holes (read back as `undefined`). -/
def writeAt (l : List J) (i : Nat) (v : J) : List J :=
  if i < l.length then l.set i v
  else l ++ List.replicate (i - l.length) J.undef ++ [v]

/-- The `/^\d+$/` test used by both path helpers. -/
def isDigits (s : String) : Bool :=
  s.length > 0 && s.data.all Char.isDigit

/-- JavaScript `parseInt` on an all-digit string. -/
def parseNatDigits (s : String) : Nat :=
  s.data.foldl (fun a c => a * 10 + (c.toNat - 48)) 0

/-- A digit string is canonical when it has no superfluous leading zero
(so it is the string form of its numeric value). -/
def canonicalDigits (s : String) : Bool :=
  s = "0" || s.data.head? != some (Char.ofNat 48)

/-- JavaScript property-key semantics: a string key addresses an array
element iff it is the canonical decimal form of an integer below
`2 ^ 32 - 1`; every other string key used on an array addresses a named
property. -/
def isArrayIndexKey (s : String) : Bool :=
  isDigits s && canonicalDigits s && parseNatDigits s < 2 ^ 32 - 1

/-- Containers are the values with JavaScript `typeof` `"object"` other
than `null`: arrays and plain objects. -/
def isContainer : J → Bool
  | J.arr _ _ => true
  | J.obj _ => true
  | _ => false

/-- Embedding of `getValueByPath` (src/tools/stories.ts, duplicated in
src/tools/components.ts), after the path has been split on `'.'`:
walk the segments; a digit segment on an array is an index access
(out-of-bounds, including holes, yields `undefined`); any other segment
on a container is an own-property read; everything else (null,
undefined, scalars, absent properties) yields `undefined`. -/
def getParts : J → List String → J
  | t, [] => t
  | J.arr elems props, p :: rest =>
    if isDigits p then
      match elems[parseNatDigits p]? with
      | some e => getParts e rest
      | none => J.undef
    else
      match lookupStr props p with
      | some v => getParts v rest
      | none => J.undef
  | J.obj fields, p :: rest =>
    (match lookupStr fields p with
    | some v => getParts v rest
    | none => J.undef)
  | _, _ :: _ => J.undef

/-- Raw JavaScript property read `current[part]`, as performed by
`setByPath` while walking intermediate segments (note: unlike `get`,
which parses any digit run, this uses genuine key semantics, so a
non-canonical digit string such as `"05"` reads a named property). -/
def readRaw (c : J) (p : String) : J :=
  match c with
  | J.arr elems props =>
    if isArrayIndexKey p then (elems[parseNatDigits p]?).getD J.undef
    else (lookupStr props p).getD J.undef
  | J.obj fields => (lookupStr fields p).getD J.undef
  | _ => J.undef

/-- Raw JavaScript property write `current[part] = v` on a container. -/
def writeRaw (c : J) (p : String) (v : J) : J :=
  match c with
  | J.arr elems props =>
    if isArrayIndexKey p then J.arr (writeAt elems (parseNatDigits p) v) props
    else J.arr elems (setAssoc props p v)
  | J.obj fields => J.obj (setAssoc fields p v)
  | c => c

/-- The intermediate-segment step of `setByPath`: keep `current[part]`
when it is already a container, otherwise replace it by a fresh array
(when the next segment is a digit run) or a fresh object. -/
def ensureChild (cur : J) (nextIsDigits : Bool) : J :=
  if isContainer cur then cur
  else if nextIsDigits then J.arr [] [] else J.obj []

/-- The final-segment write of `setByPath`: on an array a digit-run
segment is parsed with `parseInt` and written as an element (indices at
or beyond `2 ^ 32 - 1` fall back to a named property keyed by the parsed
number, per JavaScript key semantics); otherwise it is a plain property
write. -/
def setLast (c : J) (last : String) (v : J) : J :=
  match c with
  | J.arr elems props =>
    if isDigits last then
      if parseNatDigits last < 2 ^ 32 - 1 then
        J.arr (writeAt elems (parseNatDigits last) v) props
      else J.arr elems (setAssoc props (toString (parseNatDigits last)) v)
    else J.arr elems (setAssoc props last v)
  | J.obj fields => J.obj (setAssoc fields last v)
  | c => c

/-- Embedding of `setByPath` on a container, after splitting the path.
Intermediate segments read the current child, replace non-containers by
a fresh container (array when the next segment is a digit run, object
otherwise), recurse, and write back — the functional rendering of the
source's in-place mutation. -/
def setParts : J → List String → J → J
  | c, [], _ => c
  | c, [last], v => setLast c last v
  | c, p :: r1 :: rest, v =>
    writeRaw c p (setParts (ensureChild (readRaw c p) (isDigits r1)) (r1 :: rest) v)

/-- Accumulator-style splitter over the character list: the model of
JavaScript `path.split('.')` (note `"".split('.')` is `[""]`). -/
def splitSegsAux : List Char → List Char → List String
  | acc, [] => [String.mk acc.reverse]
  | acc, c :: rest =>
    if c = '.' then String.mk acc.reverse :: splitSegsAux [] rest
    else splitSegsAux (c :: acc) rest

/-- Model of `path.split('.')`. -/
def splitPath (path : String) : List String :=
  splitSegsAux [] path.data

/-- Wrapper `getValueByPath` on a raw path string: empty paths short-circuit to
`undefined`, otherwise the path is split on `'.'` and walked. -/
def getValueByPath (t : J) (path : String) : J :=
  if path = "" then J.undef else getParts t (splitPath path)

/-- Wrapper `setByPath` on a raw path string.  In strict-mode JavaScript,
assigning a property of a primitive throws a `TypeError`; the embedding
returns `none` in that case and the updated tree otherwise. -/
def setByPath (t : J) (path : String) (v : J) : Option J :=
  if isContainer t then some (setParts t (splitPath path) v) else none

/-- A path segment is well formed when it is non-empty, avoids the two
JavaScript-exotic property keys (`length` is an own property of every
array; assigning `__proto__` never creates an own property), and, if a
digit run, is the canonical form of an index below `2 ^ 32 - 1`. -/
def wfSegment (s : String) : Prop :=
  s ≠ "" ∧ s ≠ "length" ∧ s ≠ "__proto__" ∧
    (isDigits s = false ∨ (canonicalDigits s = true ∧ parseNatDigits s < 2 ^ 32 - 1))

instance wfSegmentDecidable (s : String) : Decidable (wfSegment s) := by
  unfold wfSegment
  infer_instance

/-- A well-formed path: at least one segment, all segments well formed. -/
def wfPath (parts : List String) : Prop :=
  parts ≠ [] ∧ ∀ s ∈ parts, wfSegment s

instance wfPathDecidable (parts : List String) : Decidable (wfPath parts) := by
  unfold wfPath
  infer_instance

theorem lookupStr_setAssoc_self (l : List (String × J)) (k : String) (v : J) :
    lookupStr (setAssoc l k v) k = some v := by
  induction l with
  | nil => simp [setAssoc, lookupStr]
  | cons hd tl ih =>
    obtain ⟨k', v'⟩ := hd
    by_cases h : k' = k <;> simp [setAssoc, lookupStr, h, ih]

theorem writeAt_getElem (l : List J) (i : Nat) (v : J) :
    (writeAt l i v)[i]? = some v := by
  unfold writeAt
  by_cases h : i < l.length
  · simp [h, List.getElem?_set_self, List.getElem?_eq_getElem, h]
  · simp only [h, if_false]
    have hlen : (l ++ List.replicate (i - l.length) J.undef).length = i := by
      simp only [List.length_append, List.length_replicate]
      omega
    rw [List.getElem?_append_right (by rw [hlen]), hlen]
    simp

theorem ensureChild_isContainer (cur : J) (b : Bool) :
    isContainer (ensureChild cur b) = true := by
  cases hc : isContainer cur with
  | true => simp [ensureChild, hc]
  | false =>
    cases b <;> simp only [ensureChild, hc, Bool.false_eq_true, if_false] <;> rfl

/-- A well-formed digit segment is a genuine JavaScript array-index key. -/
theorem wf_isArrayIndexKey {p : String} (hwf : wfSegment p) (hd : isDigits p = true) :
    isArrayIndexKey p = true := by
  obtain ⟨-, -, -, h⟩ := hwf
  obtain ⟨hc, hb⟩ := h.resolve_left (by simp [hd])
  simp only [isArrayIndexKey, hd, hc, Bool.true_and, decide_eq_true_eq]
  exact hb

/-- Reading back, with `get` semantics, the segment just written by a raw
JavaScript write returns the written value (well-formed segments only:
get parses any digit run as an index while raw writes use key
semantics, and the two agree on canonical bounded digit runs). -/
theorem getParts_writeRaw (c : J) (p : String) (x : J) (rest : List String)
    (hc : isContainer c = true) (hwf : wfSegment p) :
    getParts (writeRaw c p x) (p :: rest) = getParts x rest := by
  cases c with
  | arr elems props =>
    by_cases hd : isDigits p = true
    · have hk := wf_isArrayIndexKey hwf hd
      simp [writeRaw, hk, getParts, hd, writeAt_getElem]
    · have hd' : isDigits p = false := by
        cases h : isDigits p
        · rfl
        · exact absurd h hd
      have hk : isArrayIndexKey p = false := by
        simp [isArrayIndexKey, hd']
      simp [writeRaw, hk, getParts, hd', lookupStr_setAssoc_self]
  | obj fields =>
    simp [writeRaw, getParts, lookupStr_setAssoc_self]
  | undef => simp [isContainer] at hc
  | null => simp [isContainer] at hc
  | bool b => simp [isContainer] at hc
  | num n => simp [isContainer] at hc
  | str s => simp [isContainer] at hc

/-- Core round trip: for a non-empty path of well-formed segments and a
container tree, writing `v` with `setByPath` and reading the same path
with `getValueByPath` semantics yields `v` back. -/
theorem getParts_setParts (parts : List String) (hne : parts ≠ [])
    (hwf : ∀ s ∈ parts, wfSegment s) :
    ∀ c : J, isContainer c = true → ∀ v : J, getParts (setParts c parts v) parts = v := by
  induction parts with
  | nil => exact absurd rfl hne
  | cons p rest ih =>
    intro c hc v
    have hp : wfSegment p := hwf p (List.mem_cons_self _ _)
    cases rest with
    | nil =>
      cases c with
      | arr elems props =>
        by_cases hd : isDigits p = true
        · have hb := ((hp.2.2.2).resolve_left (by simp [hd])).2
          have hb' : parseNatDigits p < 4294967295 := by omega
          simp [setParts, setLast, hd, hb', getParts, writeAt_getElem]
        · simp [setParts, setLast, hd, getParts, lookupStr_setAssoc_self]
      | obj fields =>
        simp [setParts, setLast, getParts, lookupStr_setAssoc_self]
      | undef => simp [isContainer] at hc
      | null => simp [isContainer] at hc
      | bool b => simp [isContainer] at hc
      | num n => simp [isContainer] at hc
      | str s => simp [isContainer] at hc
    | cons r1 rest' =>
      have hchild : isContainer (ensureChild (readRaw c p) (isDigits r1)) = true :=
        ensureChild_isContainer _ _
      have hrec :
          getParts (setParts (ensureChild (readRaw c p) (isDigits r1)) (r1 :: rest') v)
            (r1 :: rest') = v :=
        ih (by simp) (fun s hs => hwf s (List.mem_cons_of_mem _ hs)) _ hchild v
      calc getParts (setParts c (p :: r1 :: rest') v) (p :: r1 :: rest')
          = getParts
              (writeRaw c p (setParts (ensureChild (readRaw c p) (isDigits r1)) (r1 :: rest') v))
              (p :: r1 :: rest') := by
            simp [setParts]
        _ = getParts (setParts (ensureChild (readRaw c p) (isDigits r1)) (r1 :: rest') v)
              (r1 :: rest') :=
            getParts_writeRaw _ _ _ _ hc hp
        _ = v := hrec

/-- C6: for every well-formed path `p`, container tree `t`, and value
`v`, `setByPath t p v` succeeds and `getValueByPath` on the result at
the same path returns `v`.  `setByPath` creates intermediate mappings
(or arrays when the next segment is numeric) and overwrites
non-container intermediates, and it grows arrays as needed, so the
round trip holds without exception for well-formed paths — in
particular the out-of-bounds-on-get escape clause of the claim is never
exercised. -/
theorem pathAccessor_set_get_roundtrip (t : J) (path : String) (v : J)
    (hwf : wfPath (splitPath path)) (hc : isContainer t = true) :
    ∃ t', setByPath t path v = some t' ∧ getValueByPath t' path = v := by
  refine ⟨setParts t (splitPath path) v, ?_, ?_⟩
  · simp [setByPath, hc]
  · have hne : ¬path = "" := by
      intro h
      subst h
      have hmem : "" ∈ splitPath "" := by
        rw [show splitPath "" = [""] from rfl]
        exact List.mem_singleton.mpr rfl
      exact (hwf.2 "" hmem).1 rfl
    simp only [getValueByPath, hne, if_false]
    exact getParts_setParts _ hwf.1 hwf.2 t hc v

/-- Witness for C6 at the concrete path `"a.0.b"` on an empty object:
both hypotheses hold and the round trip returns the written string. -/
theorem pathAccessor_set_get_roundtrip_witness :
    wfPath (splitPath "a.0.b") ∧ isContainer (J.obj []) = true ∧
      ∃ t', setByPath (J.obj []) "a.0.b" (J.str "x") = some t' ∧
        getValueByPath t' "a.0.b" = J.str "x" :=
  ⟨by decide, rfl,
    pathAccessor_set_get_roundtrip (J.obj []) "a.0.b" (J.str "x") (by decide) rfl⟩

/-- ASCII model of JavaScript
`hay.toLowerCase().includes(needle.toLowerCase())`: case-insensitive
substring containment, lowercasing character-wise. -/
def containsCI (hay needle : String) : Bool :=
  decide ((needle.data.map Char.toLower) <:+: (hay.data.map Char.toLower))

mutual
/-- Embedding of `recursiveDeepSearch` (search-content tool,
src/tools/components.ts) for tree-shaped values.  The source threads a
mutable visited set holding exactly the strict ancestors of the current
node; on an inductive tree a node is never its own ancestor, so the
`visited.has` test is always false and the traversal is the plain
structural recursion below: a string leaf matches by case-insensitive
substring containment, arrays recurse over their elements (named array
properties are not visited by `for..of`), objects recurse over their
own fields, and every other value — `null`, `undefined`, numbers,
booleans — is `false`.  The query is lowercased at each leaf
comparison, equivalent to the source's single up-front lowercasing. -/
def recursiveDeepSearch (q : String) : J → Bool
  | J.str s => containsCI s q
  | J.arr elems _ => recursiveDeepSearchList q elems
  | J.obj fields => recursiveDeepSearchFields q fields
  | _ => false

/-- Scan `for (const item of currentValue)` over array elements,
with JavaScript `some`-style short-circuiting. -/
def recursiveDeepSearchList (q : String) : List J → Bool
  | [] => false
  | e :: rest => recursiveDeepSearch q e || recursiveDeepSearchList q rest

/-- Scan `for (const key in currentValue)` over own fields. -/
def recursiveDeepSearchFields (q : String) : List (String × J) → Bool
  | [] => false
  | (_, v) :: rest => recursiveDeepSearch q v || recursiveDeepSearchFields q rest
end

mutual
/-- A value is proper when every array in it carries no named
properties: exactly the JSON-representable values (every story content
tree produced by `JSON.parse` of an API response is proper). -/
def jproper : J → Bool
  | J.arr elems props => props.isEmpty && jproperList elems
  | J.obj fields => jproperFields fields
  | _ => true

def jproperList : List J → Bool
  | [] => true
  | e :: rest => jproper e && jproperList rest

def jproperFields : List (String × J) → Bool
  | [] => true
  | (_, v) :: rest => jproper v && jproperFields rest
end

/-- Predicate `IsStringLeaf t s`: the string `s` occurs as a string-valued leaf
somewhere in the tree `t` (inside array elements, named array
properties, or object fields). -/
inductive IsStringLeaf : J → String → Prop where
  | strLeaf (s : String) : IsStringLeaf (J.str s) s
  | inElem {e : J} {elems : List J} {props : List (String × J)} {s : String}
      (he : e ∈ elems) (h : IsStringLeaf e s) : IsStringLeaf (J.arr elems props) s
  | inProp {k : String} {v : J} {elems : List J} {props : List (String × J)} {s : String}
      (hv : (k, v) ∈ props) (h : IsStringLeaf v s) : IsStringLeaf (J.arr elems props) s
  | inField {k : String} {v : J} {fields : List (String × J)} {s : String}
      (hv : (k, v) ∈ fields) (h : IsStringLeaf v s) : IsStringLeaf (J.obj fields) s

theorem recursiveDeepSearchList_iff (q : String) (l : List J) :
    recursiveDeepSearchList q l = true ↔ ∃ e ∈ l, recursiveDeepSearch q e = true := by
  induction l with
  | nil => simp [recursiveDeepSearchList]
  | cons e rest ih => simp [recursiveDeepSearchList, ih]

theorem recursiveDeepSearchFields_iff (q : String) (l : List (String × J)) :
    recursiveDeepSearchFields q l = true ↔
      ∃ kv ∈ l, recursiveDeepSearch q kv.2 = true := by
  induction l with
  | nil => simp [recursiveDeepSearchFields]
  | cons kv rest ih =>
    obtain ⟨k, v⟩ := kv
    simp [recursiveDeepSearchFields, ih]

theorem jproperList_forall {l : List J} (h : jproperList l = true) :
    ∀ e ∈ l, jproper e = true := by
  induction l with
  | nil => simp
  | cons e rest ih =>
    simp only [jproperList, Bool.and_eq_true] at h
    intro x hx
    rcases List.mem_cons.mp hx with rfl | hx
    · exact h.1
    · exact ih h.2 x hx

theorem jproperFields_forall {l : List (String × J)} (h : jproperFields l = true) :
    ∀ kv ∈ l, jproper kv.2 = true := by
  induction l with
  | nil => simp
  | cons kv rest ih =>
    obtain ⟨k, v⟩ := kv
    simp only [jproperFields, Bool.and_eq_true] at h
    intro x hx
    rcases List.mem_cons.mp hx with rfl | hx
    · exact h.1
    · exact ih h.2 x hx

/-- The match characterization, by strong induction on the size of the
tree. -/
theorem recursiveDeepSearch_iff_aux (q : String) :
    ∀ n (t : J), sizeOf t ≤ n → jproper t = true →
      (recursiveDeepSearch q t = true ↔
        ∃ s, IsStringLeaf t s ∧ containsCI s q = true) := by
  intro n
  induction n with
  | zero =>
    intro t ht
    exfalso
    cases t <;> simp at ht
  | succ n ih =>
    intro t ht hp
    cases t with
    | str s =>
      constructor
      · intro h
        exact ⟨s, IsStringLeaf.strLeaf s, h⟩
      · rintro ⟨s', hleaf, hci⟩
        cases hleaf
        exact hci
    | arr elems props =>
      have hprops : props = [] := by
        simp only [jproper, Bool.and_eq_true, List.isEmpty_iff] at hp
        exact hp.1
      subst hprops
      have helems : jproperList elems = true := by
        simp only [jproper, Bool.and_eq_true] at hp
        exact hp.2
      rw [show recursiveDeepSearch q (J.arr elems []) = recursiveDeepSearchList q elems
        from rfl]
      rw [recursiveDeepSearchList_iff]
      constructor
      · rintro ⟨e, he, hmatch⟩
        have hsz : sizeOf e ≤ n := by
          have h1 := List.sizeOf_lt_of_mem he
          have h2 : sizeOf (J.arr elems ([] : List (String × J))) = 1 + sizeOf elems + 1 := by
            simp
          omega
        obtain ⟨s, hleaf, hci⟩ :=
          (ih e hsz (jproperList_forall helems e he)).mp hmatch
        exact ⟨s, IsStringLeaf.inElem he hleaf, hci⟩
      · rintro ⟨s, hleaf, hci⟩
        cases hleaf with
        | inElem he h =>
          rename_i e
          refine ⟨e, he, ?_⟩
          have hsz : sizeOf e ≤ n := by
            have h1 := List.sizeOf_lt_of_mem he
            have h2 : sizeOf (J.arr elems ([] : List (String × J))) = 1 + sizeOf elems + 1 := by
              simp
            omega
          exact (ih e hsz (jproperList_forall helems e he)).mpr ⟨s, h, hci⟩
        | inProp hv h => simp at hv
    | obj fields =>
      have hfields : jproperFields fields = true := hp
      rw [show recursiveDeepSearch q (J.obj fields) = recursiveDeepSearchFields q fields
        from rfl]
      rw [recursiveDeepSearchFields_iff]
      constructor
      · rintro ⟨⟨k, v⟩, hkv, hmatch⟩
        have hsz : sizeOf v ≤ n := by
          have h1 := List.sizeOf_lt_of_mem hkv
          have h2 : sizeOf (J.obj fields) = 1 + sizeOf fields := by simp
          have h3 : sizeOf (k, v) = 1 + sizeOf k + sizeOf v := by simp
          omega
        obtain ⟨s, hleaf, hci⟩ :=
          (ih v hsz (jproperFields_forall hfields ⟨k, v⟩ hkv)).mp hmatch
        exact ⟨s, IsStringLeaf.inField hkv hleaf, hci⟩
      · rintro ⟨s, hleaf, hci⟩
        cases hleaf with
        | inField hv h =>
          rename_i k v
          refine ⟨(k, v), hv, ?_⟩
          have hsz : sizeOf v ≤ n := by
            have h1 := List.sizeOf_lt_of_mem hv
            have h2 : sizeOf (J.obj fields) = 1 + sizeOf fields := by simp
            have h3 : sizeOf (k, v) = 1 + sizeOf k + sizeOf v := by simp
            omega
          exact (ih v hsz (jproperFields_forall hfields (k, v) hv)).mpr ⟨s, h, hci⟩
    | undef =>
      simp only [recursiveDeepSearch]
      constructor
      · intro h
        exact absurd h (by simp)
      · rintro ⟨s, hleaf, -⟩
        cases hleaf
    | null =>
      simp only [recursiveDeepSearch]
      constructor
      · intro h
        exact absurd h (by simp)
      · rintro ⟨s, hleaf, -⟩
        cases hleaf
    | bool b =>
      simp only [recursiveDeepSearch]
      constructor
      · intro h
        exact absurd h (by simp)
      · rintro ⟨s, hleaf, -⟩
        cases hleaf
    | num m =>
      simp only [recursiveDeepSearch]
      constructor
      · intro h
        exact absurd h (by simp)
      · rintro ⟨s, hleaf, -⟩
        cases hleaf

/-- C7: deep text match returns true iff some string-valued leaf of the
(JSON-representable) tree contains the query as a substring compared
case-insensitively; non-string scalar leaves never produce a match
(they have no string leaves, so the right-hand side is empty for them);
and in particular `deepTextMatch({a:"Hello"}, "hello")` is true. -/
theorem deepTextMatch_characterization :
    recursiveDeepSearch "hello" (J.obj [("a", J.str "Hello")]) = true ∧
      ∀ (t : J) (q : String), jproper t = true →
        (recursiveDeepSearch q t = true ↔
          ∃ s, IsStringLeaf t s ∧ containsCI s q = true) := by
  constructor
  · decide
  · intro t q hp
    exact recursiveDeepSearch_iff_aux q (sizeOf t) t le_rfl hp

/-- Witness for C7: the properness hypothesis holds at the concrete
tree `{a: "Hello"}` and the characterization applies there. -/
theorem deepTextMatch_characterization_witness :
    jproper (J.obj [("a", J.str "Hello")]) = true ∧
      (recursiveDeepSearch "hello" (J.obj [("a", J.str "Hello")]) = true ↔
        ∃ s, IsStringLeaf (J.obj [("a", J.str "Hello")]) s ∧ containsCI s "hello" = true) :=
  ⟨by decide, deepTextMatch_characterization.2 (J.obj [("a", J.str "Hello")]) "hello" (by decide)⟩

/-- A story record: stable integer identity plus its content tree
(other metadata fields play no role in the verified properties). -/
structure Story where
  id : Nat
  content : J
deriving Repr

/-- A JavaScript `Map` keyed by story id, as its insertion-ordered
entry list. -/
abbrev StoryMap := List (Nat × Story)

/-- JavaScript `Map.set`: an existing key is updated in place (keeping its
insertion position); a new key is appended at the end. -/
def mset (m : StoryMap) (k : Nat) (v : Story) : StoryMap :=
  match m with
  | [] => [(k, v)]
  | (k', v') :: rest => if k' = k then (k', v) :: rest else (k', v') :: mset rest k v

/-- JavaScript `Map.has`. -/
def hasK (m : StoryMap) (k : Nat) : Bool :=
  match m with
  | [] => false
  | (k', _) :: rest => k' == k || hasK rest k

/-- JavaScript `Map.get`. -/
def lookupK (m : StoryMap) (k : Nat) : Option Story :=
  match m with
  | [] => none
  | (k', v') :: rest => if k' = k then some v' else lookupK rest k

/-- JavaScript `Array.from(map.values())`. -/
def valuesM (m : StoryMap) : List Story := m.map (fun e => e.2)

/-- JavaScript `map.size`. -/
def sizeM (m : StoryMap) : Nat := m.length

/-- Insertion-ordered key list. -/
def keysM (m : StoryMap) : List Nat := m.map (fun e => e.1)

/-- Model of `stories.forEach(story => storiesMap.set(story.id, story))`. -/
def insertAll (m : StoryMap) (stories : List Story) : StoryMap :=
  stories.foldl (fun acc s => mset acc s.id s) m

/-- Embedding of the `content_status === "both"` merge used by
fetch-stories, fetch-stories-by-component and search-content: build a
fresh map, insert all published records first, then all draft records
(overwriting on id collision), and return the value list. -/
def mergeBothVersions (publishedStories draftStories : List Story) : List Story :=
  valuesM (insertAll (insertAll [] publishedStories) draftStories)

theorem mset_pred {P : Nat × Story → Prop} {m : StoryMap} {k : Nat} {v : Story}
    (hm : ∀ e ∈ m, P e) (hv : P (k, v)) : ∀ e ∈ mset m k v, P e := by
  induction m with
  | nil =>
    intro e he
    simp only [mset, List.mem_singleton] at he
    exact he ▸ hv
  | cons hd rest ih =>
    obtain ⟨k', v'⟩ := hd
    intro e he
    by_cases h : k' = k
    · simp only [mset, h, if_pos rfl] at he
      rcases List.mem_cons.mp he with rfl | he'
      · exact h ▸ hv
      · exact hm e (List.mem_cons_of_mem _ he')
    · simp only [mset, if_neg h] at he
      rcases List.mem_cons.mp he with rfl | he'
      · exact hm _ (List.mem_cons_self _ _)
      · exact ih (fun e' he'' => hm e' (List.mem_cons_of_mem _ he'')) e he'

theorem insertAll_pred {P : Nat × Story → Prop} (stories : List Story) :
    ∀ m : StoryMap, (∀ e ∈ m, P e) → (∀ s ∈ stories, P (s.id, s)) →
      ∀ e ∈ insertAll m stories, P e := by
  induction stories with
  | nil =>
    intro m hm _
    exact hm
  | cons s rest ih =>
    intro m hm hs
    have h1 : ∀ e ∈ mset m s.id s, P e :=
      mset_pred hm (hs s (List.mem_cons_self _ _))
    exact ih _ h1 (fun s' hs' => hs s' (List.mem_cons_of_mem _ hs'))

theorem keysM_mset (m : StoryMap) (k : Nat) (v : Story) :
    keysM (mset m k v) = if hasK m k then keysM m else keysM m ++ [k] := by
  induction m with
  | nil => simp [mset, hasK, keysM]
  | cons hd rest ih =>
    obtain ⟨k', v'⟩ := hd
    by_cases h : k' = k
    · simp [mset, hasK, keysM, h]
    · have h' : (k' == k) = false := by simp [h]
      simp only [mset, if_neg h, keysM, List.map_cons, hasK, h', Bool.false_or]
      rw [show List.map (fun e => e.1) (mset rest k v) = keysM (mset rest k v) from rfl, ih]
      by_cases hr : hasK rest k = true <;> simp [hr, keysM]

theorem hasK_iff_mem_keysM (m : StoryMap) (k : Nat) :
    hasK m k = true ↔ k ∈ keysM m := by
  induction m with
  | nil => simp [hasK, keysM]
  | cons hd rest ih =>
    obtain ⟨k', v'⟩ := hd
    simp only [hasK, keysM, List.map_cons, List.mem_cons, Bool.or_eq_true, beq_iff_eq, ih]
    constructor
    · rintro (rfl | h)
      · exact Or.inl rfl
      · exact Or.inr h
    · rintro (rfl | h)
      · exact Or.inl rfl
      · exact Or.inr h

theorem keysM_mset_nodup {m : StoryMap} (h : (keysM m).Nodup) (k : Nat) (v : Story) :
    (keysM (mset m k v)).Nodup := by
  rw [keysM_mset]
  by_cases hk : hasK m k = true
  · simp [hk, h]
  · have hk' : hasK m k = false := by
      cases hh : hasK m k
      · rfl
      · exact absurd hh hk
    have hnot : k ∉ keysM m := fun hmem => hk ((hasK_iff_mem_keysM m k).mpr hmem)
    simp only [hk', Bool.false_eq_true, if_false]
    refine List.nodup_append.mpr ⟨h, List.nodup_singleton k, ?_⟩
    intro a ha hb
    rw [List.mem_singleton] at hb
    exact hnot (hb ▸ ha)

theorem insertAll_keys_nodup (stories : List Story) :
    ∀ m : StoryMap, (keysM m).Nodup → (keysM (insertAll m stories)).Nodup := by
  induction stories with
  | nil =>
    intro m hm
    exact hm
  | cons s rest ih =>
    intro m hm
    exact ih _ (keysM_mset_nodup hm s.id s)

theorem lookupK_mset_self (m : StoryMap) (k : Nat) (v : Story) :
    lookupK (mset m k v) k = some v := by
  induction m with
  | nil => simp [mset, lookupK]
  | cons hd rest ih =>
    obtain ⟨k', v'⟩ := hd
    by_cases h : k' = k <;> simp [mset, lookupK, h, ih]

theorem lookupK_mset_ne (m : StoryMap) {k k' : Nat} (v : Story) (h : k' ≠ k) :
    lookupK (mset m k' v) k = lookupK m k := by
  induction m with
  | nil => simp [mset, lookupK, h]
  | cons hd rest ih =>
    obtain ⟨k'', v''⟩ := hd
    by_cases h2 : k'' = k' <;> by_cases h3 : k'' = k <;>
      simp_all [mset, lookupK]

/-- The value finally held by the map at key `i` after inserting a list
of stories is the last story of that list with id `i` (falling back to
the pre-existing entry). -/
theorem lookupK_insertAll (stories : List Story) :
    ∀ (m : StoryMap) (i : Nat),
      lookupK (insertAll m stories) i =
        (match (stories.filter (fun s => s.id == i)).getLast? with
        | some s => some s
        | none => lookupK m i) := by
  induction stories with
  | nil =>
    intro m i
    simp [insertAll]
  | cons s rest ih =>
    intro m i
    have step : insertAll m (s :: rest) = insertAll (mset m s.id s) rest := rfl
    rw [step, ih]
    by_cases hid : s.id = i
    · have hfil : (s :: rest).filter (fun s => s.id == i) =
          s :: rest.filter (fun s => s.id == i) := by
        simp [List.filter_cons, hid]
      rw [hfil]
      cases hlast : (rest.filter (fun s => s.id == i)).getLast? with
      | some t => simp [List.getLast?_cons, hlast]
      | none =>
        have hnil : rest.filter (fun s => s.id == i) = [] :=
          List.getLast?_eq_none_iff.mp hlast
        simp only [hnil, hlast]
        rw [hid] at *
        simp [lookupK_mset_self]
    · have hfil : (s :: rest).filter (fun s => s.id == i) =
          rest.filter (fun s => s.id == i) := by
        simp [List.filter_cons, hid]
      rw [hfil]
      cases hlast : (rest.filter (fun s => s.id == i)).getLast? with
      | some t => rfl
      | none => simp [lookupK_mset_ne m s hid]

theorem valuesM_filter_of_lookup (m : StoryMap) (i : Nat) (d : Story)
    (hinv : ∀ e ∈ m, e.2.id = e.1) (hnd : (keysM m).Nodup)
    (hl : lookupK m i = some d) :
    (valuesM m).filter (fun s => s.id == i) = [d] := by
  induction m with
  | nil => simp [lookupK] at hl
  | cons hd rest ih =>
    obtain ⟨k', v'⟩ := hd
    by_cases h : k' = i
    · subst h
      have hvd : v' = d := by simpa [lookupK] using hl
      subst hvd
      have hvid : v'.id = k' := hinv (k', v') (List.mem_cons_self _ _)
      have hrest : ∀ e ∈ rest, e.2.id = e.1 :=
        fun e he => hinv e (List.mem_cons_of_mem _ he)
      have hknotin : k' ∉ keysM rest := by
        have := hnd
        simp only [keysM, List.map_cons, List.nodup_cons] at this
        exact this.1
      have hnone : ∀ s ∈ valuesM rest, (s.id == k') = false := by
        intro s hs
        simp only [valuesM, List.mem_map] at hs
        obtain ⟨e, he, rfl⟩ := hs
        have : e.2.id = e.1 := hrest e he
        rw [this]
        simp only [beq_eq_false_iff_ne, ne_eq]
        intro heq
        exact hknotin (heq ▸ List.mem_map_of_mem (fun e => e.1) he)
      have hfilnil : List.filter (fun s => s.id == k') (valuesM rest) = [] := by
        rw [List.filter_eq_nil_iff]
        intro a ha
        simp [hnone a ha]
      simp [valuesM, List.filter_cons, hvid, hfilnil]
      intro a x hmem heq
      have hax : a.id = x := hrest (x, a) hmem
      apply hknotin
      have hx : x ∈ keysM rest := List.mem_map_of_mem (fun e => e.1) hmem
      rw [← hax, heq] at hx
      exact hx
    · simp only [lookupK, if_neg h] at hl
      have hvid : v'.id = k' := hinv (k', v') (List.mem_cons_self _ _)
      have hne : (v'.id == i) = false := by
        rw [hvid]
        simp [h]
      simp only [valuesM, List.map_cons, List.filter_cons, hne]
      exact ih (fun e he => hinv e (List.mem_cons_of_mem _ he))
        (by simp only [keysM, List.map_cons, List.nodup_cons] at hnd; exact hnd.2) hl

/-- C3: in the `content_status "both"` merge, whenever draft returns
exactly one record with id `i` (namely `d`), the merged output contains
exactly one record with that id and it is the draft record — published
records are inserted first and draft records overwrite on id
collision, so draft wins, whatever the published list holds. -/
theorem mergeVersions_draft_wins (pub dr : List Story) (i : Nat) (d : Story)
    (hdr : dr.filter (fun s => s.id == i) = [d]) :
    (mergeBothVersions pub dr).filter (fun s => s.id == i) = [d] := by
  have hinv : ∀ e ∈ insertAll (insertAll [] pub) dr, e.2.id = e.1 := by
    apply insertAll_pred
    · apply insertAll_pred
      · simp
      · intro s _
        rfl
    · intro s _
      rfl
  have hnd : (keysM (insertAll (insertAll [] pub) dr)).Nodup := by
    apply insertAll_keys_nodup
    apply insertAll_keys_nodup
    simp [keysM]
  have hlook : lookupK (insertAll (insertAll [] pub) dr) i = some d := by
    rw [lookupK_insertAll, hdr]
    simp
  exact valuesM_filter_of_lookup _ i d hinv hnd hlook

/-- Witness for C3 at the spec's concrete scenario: draft
`{id: 1, content: {component: "b"}}` and published
`{id: 1, content: {component: "a"}}` merge to the single draft record
(merged count 1, not 2). -/
theorem mergeVersions_draft_wins_witness :
    ([⟨1, J.obj [("component", J.str "b")]⟩] : List Story).filter (fun s => s.id == 1) =
        [⟨1, J.obj [("component", J.str "b")]⟩] ∧
      (mergeBothVersions [⟨1, J.obj [("component", J.str "a")]⟩]
          [⟨1, J.obj [("component", J.str "b")]⟩]).filter (fun s => s.id == 1) =
        [⟨1, J.obj [("component", J.str "b")]⟩] ∧
      (mergeBothVersions [⟨1, J.obj [("component", J.str "a")]⟩]
          [⟨1, J.obj [("component", J.str "b")]⟩]).length = 1 :=
  ⟨rfl, mergeVersions_draft_wins _ _ 1 _ rfl, rfl⟩

/-- One version's fetch result inside the `"both"` orchestration:
`{ stories_data, total_from_api }` as returned by
`fetchStoriesForVersion` / `fetchStoriesForSearch`. -/
structure FetchResult where
  stories_data : List Story
  total_from_api : Nat
deriving Repr

/-- The merged outcome of the `"both"` branch. -/
structure MergedFetch where
  storiesToAnalyze : List Story
  total_items_from_api : Nat
deriving Repr

/-- Embedding of the `content_status === "both"` branch of
search-content (identical in fetch-stories and
fetch-stories-by-component): merge published-then-draft and take
`total_items_from_api` from the draft call. -/
def mergeVersionsBoth (draftData publishedData : FetchResult) : MergedFetch :=
  { storiesToAnalyze :=
      mergeBothVersions publishedData.stories_data draftData.stories_data,
    total_items_from_api := draftData.total_from_api }

/-- C8: for every pair of per-version fetch results merged with
content_status "both", the total reported in the result equals the
draft call's origin-reported total; the remaining conjuncts exhibit a
concrete pair on which that total differs both from the published
call's total and from the merged record count, so the draft-authoritative
asymmetry is not vacuous. -/
theorem mergeVersions_total_from_draft :
    (∀ draftData publishedData : FetchResult,
      (mergeVersionsBoth draftData publishedData).total_items_from_api =
        draftData.total_from_api) ∧
    (mergeVersionsBoth ⟨[⟨1, J.null⟩], 7⟩ ⟨[⟨2, J.null⟩], 3⟩).total_items_from_api ≠
      (⟨[⟨2, J.null⟩], 3⟩ : FetchResult).total_from_api ∧
    (mergeVersionsBoth ⟨[⟨1, J.null⟩], 7⟩ ⟨[⟨2, J.null⟩], 3⟩).total_items_from_api ≠
      (mergeVersionsBoth ⟨[⟨1, J.null⟩], 7⟩ ⟨[⟨2, J.null⟩], 3⟩).storiesToAnalyze.length :=
  ⟨fun _ _ => rfl, by decide, by decide⟩

/-- The two story versions. -/
inductive Version where
  | published : Version
  | draft : Version
deriving DecidableEq, Repr

/-- One page response from the remote listing endpoint:
`{ stories, total }`. -/
structure Page where
  stories : List Story
  total : Nat
deriving Repr

/-- Constant `MAX_PAGES = 10` of get-component-usage. -/
def MAX_PAGES : Nat := 10

/-- Constant `PER_PAGE = 100` of get-component-usage. -/
def PER_PAGE : Nat := 100

/-- The per-story insertion rule of get-component-usage's fetch loop:
`if (version === "draft" || !allStoriesMap.has(story.id))
allStoriesMap.set(story.id, story)` — draft always overwrites,
published inserts only missing ids. -/
def usageInsert (version : Version) (m : StoryMap) (stories : List Story) : StoryMap :=
  stories.foldl
    (fun acc s =>
      if version = Version.draft || !(hasK acc s.id) then mset acc s.id s else acc) m

/-- Exit state of one version's while-loop, with the list of page
numbers actually requested. -/
structure LoopResult where
  map : StoryMap
  pagesFetched : Nat
  hasMore : Bool
  requests : List Nat
deriving Repr

/-- Embedding of the per-version while-loop of get-component-usage:
`while (hasMore && pagesFetched < MAX_PAGES)` — the remaining-pages
budget `fuel` stands for `MAX_PAGES - pagesFetched` (the loop is
entered with `pagesFetched = 0` and `fuel = MAX_PAGES`, and the two
move in lockstep, so `fuel = 0` is exactly the cap).  A failed page
request (`none`, the catch branch) ends the loop keeping accumulated
records; otherwise the page's stories are merged into the shared map,
the page counter is incremented, and the loop stops unless the map
size is still below the page's reported total and the page was full
(`stories.length < PER_PAGE` is the short-page test). -/
def fetchLoop (fetchPage : Nat → Option Page) (version : Version) (perPage : Nat) :
    Nat → StoryMap → Nat → Nat → LoopResult
  | 0, m, _, pf => ⟨m, pf, true, []⟩
  | fuel + 1, m, page, pf =>
    match fetchPage page with
    | none => ⟨m, pf, false, [page]⟩
    | some data =>
      let m' := usageInsert version m data.stories
      let pf' := pf + 1
      if data.total ≤ sizeM m' ∨ data.stories.length < perPage then
        ⟨m', pf', false, [page]⟩
      else
        let r := fetchLoop fetchPage version perPage fuel m' (page + 1) pf'
        ⟨r.map, r.pagesFetched, r.hasMore, page :: r.requests⟩

/-- One version's loop as run by the tool: page counter reset to `0`,
first page `1`, cap `MAX_PAGES`, page size `PER_PAGE`, continuing from
the shared story map. -/
def runVersionLoop (fetchPage : Nat → Option Page) (version : Version)
    (m : StoryMap) : LoopResult :=
  fetchLoop fetchPage version PER_PAGE MAX_PAGES m 1 0

/-- Model of `if (pagesFetched >= MAX_PAGES && hasMore) limitReached = true`. -/
def versionLimit (r : LoopResult) : Bool :=
  decide (MAX_PAGES ≤ r.pagesFetched) && r.hasMore

/-- Outcome of get-component-usage's fetch phase. -/
structure UsageResult where
  map : StoryMap
  published : LoopResult
  draft : LoopResult
  limitReached : Bool
deriving Repr

/-- Embedding of get-component-usage's fetch-and-merge phase: the
published loop runs first from an empty map, the draft loop continues
from the resulting shared map with its own page counter reset, and
`limitReached` (reported as `search_limit_reached` in the result
payload, never thrown) is set when either loop exits at its cap with
`hasMore` still true. -/
def runComponentUsage (fetchPage : Version → Nat → Option Page) : UsageResult :=
  let pub := runVersionLoop (fetchPage Version.published) Version.published []
  let dr := runVersionLoop (fetchPage Version.draft) Version.draft pub.map
  ⟨dr.map, pub, dr, versionLimit pub || versionLimit dr⟩

theorem fetchLoop_requests_len (fetchPage : Nat → Option Page) (version : Version)
    (perPage : Nat) :
    ∀ (fuel : Nat) (m : StoryMap) (page pf : Nat),
      (fetchLoop fetchPage version perPage fuel m page pf).requests.length ≤ fuel := by
  intro fuel
  induction fuel with
  | zero =>
    intro m page pf
    simp [fetchLoop]
  | succ fuel ih =>
    intro m page pf
    simp only [fetchLoop]
    cases fetchPage page with
    | none => simp
    | some data =>
      by_cases h : data.total ≤ sizeM (usageInsert version m data.stories) ∨
          data.stories.length < perPage
      · simp [h]
      · simp only [h, if_false, List.length_cons]
        exact Nat.succ_le_succ (ih _ _ _)

theorem fetchLoop_pf_le (fetchPage : Nat → Option Page) (version : Version)
    (perPage : Nat) :
    ∀ (fuel : Nat) (m : StoryMap) (page pf : Nat),
      (fetchLoop fetchPage version perPage fuel m page pf).pagesFetched ≤ pf + fuel := by
  intro fuel
  induction fuel with
  | zero =>
    intro m page pf
    simp [fetchLoop]
  | succ fuel ih =>
    intro m page pf
    simp only [fetchLoop]
    cases fetchPage page with
    | none => simp
    | some data =>
      by_cases h : data.total ≤ sizeM (usageInsert version m data.stories) ∨
          data.stories.length < perPage
      · simp [h]
      · simp only [h, if_false]
        have := ih (usageInsert version m data.stories) (page + 1) (pf + 1)
        omega

/-- C10: the page counter is reset per version, so the 10-page cap
applies separately to the published and the draft loop: each version
issues at most `MAX_PAGES` page requests (at most 20 in total for one
query), and the `search_limit_reached` flag is set iff either
version's own loop exits having fetched exactly its 10-page budget
with more pages believed to remain. -/
theorem componentUsage_per_version_cap (fetchPage : Version → Nat → Option Page) :
    (runComponentUsage fetchPage).published.requests.length ≤ MAX_PAGES ∧
    (runComponentUsage fetchPage).draft.requests.length ≤ MAX_PAGES ∧
    (runComponentUsage fetchPage).published.requests.length +
      (runComponentUsage fetchPage).draft.requests.length ≤ 2 * MAX_PAGES ∧
    ((runComponentUsage fetchPage).limitReached = true ↔
      (((runComponentUsage fetchPage).published.pagesFetched = MAX_PAGES ∧
          (runComponentUsage fetchPage).published.hasMore = true) ∨
        ((runComponentUsage fetchPage).draft.pagesFetched = MAX_PAGES ∧
          (runComponentUsage fetchPage).draft.hasMore = true))) := by
  have hp1 := fetchLoop_requests_len (fetchPage Version.published) Version.published
    PER_PAGE MAX_PAGES [] 1 0
  have hd1 := fetchLoop_requests_len (fetchPage Version.draft) Version.draft
    PER_PAGE MAX_PAGES
    (runVersionLoop (fetchPage Version.published) Version.published []).map 1 0
  have hp2 := fetchLoop_pf_le (fetchPage Version.published) Version.published
    PER_PAGE MAX_PAGES [] 1 0
  have hd2 := fetchLoop_pf_le (fetchPage Version.draft) Version.draft
    PER_PAGE MAX_PAGES
    (runVersionLoop (fetchPage Version.published) Version.published []).map 1 0
  simp only [runComponentUsage, runVersionLoop, versionLimit, Bool.or_eq_true,
    Bool.and_eq_true, decide_eq_true_eq] at *
  refine ⟨hp1, hd1, by omega, ?_⟩
  constructor
  · rintro (⟨hcap, hmore⟩ | ⟨hcap, hmore⟩)
    · exact Or.inl ⟨by omega, hmore⟩
    · exact Or.inr ⟨by omega, hmore⟩
  · rintro (⟨hcap, hmore⟩ | ⟨hcap, hmore⟩)
    · exact Or.inl ⟨by omega, hmore⟩
    · exact Or.inr ⟨by omega, hmore⟩

theorem sizeM_eq_keysM_length (m : StoryMap) : sizeM m = (keysM m).length := by
  simp [sizeM, keysM]

theorem mset_fresh {m : StoryMap} {k : Nat} (v : Story) (h : hasK m k = false) :
    mset m k v = m ++ [(k, v)] := by
  induction m with
  | nil => simp [mset]
  | cons hd rest ih =>
    obtain ⟨k', v'⟩ := hd
    rw [hasK, Bool.or_eq_false_iff] at h
    have hne : k' ≠ k := by
      intro heq
      rw [heq] at h
      simp at h
    simp [mset, hne, ih h.2]

theorem hasK_append_single (m : StoryMap) (k : Nat) (v : Story) (i : Nat) :
    hasK (m ++ [(k, v)]) i = (hasK m i || (k == i)) := by
  induction m with
  | nil => simp [hasK]
  | cons hd rest ih =>
    obtain ⟨k', v'⟩ := hd
    simp [hasK, ih, Bool.or_assoc]

/-- Inserting a batch of stories whose ids are pairwise distinct and
absent from the map appends them all, for either version's insertion
rule. -/
theorem usageInsert_fresh (ver : Version) :
    ∀ (batch : List Story) (m : StoryMap),
      (∀ s ∈ batch, hasK m s.id = false) →
      (batch.map (fun s => s.id)).Nodup →
      usageInsert ver m batch = m ++ batch.map (fun s => (s.id, s)) := by
  intro batch
  induction batch with
  | nil =>
    intro m _ _
    simp [usageInsert]
  | cons s rest ih =>
    intro m hfresh hnd
    have hs : hasK m s.id = false := hfresh s (List.mem_cons_self _ _)
    have step : usageInsert ver m (s :: rest) =
        usageInsert ver (mset m s.id s) rest := by
      simp [usageInsert, hs]
    rw [step, mset_fresh s hs]
    have hnd' : (rest.map (fun s => s.id)).Nodup := by
      simp only [List.map_cons, List.nodup_cons] at hnd
      exact hnd.2
    have hsid : s.id ∉ rest.map (fun s => s.id) := by
      simp only [List.map_cons, List.nodup_cons] at hnd
      exact hnd.1
    have hfresh' : ∀ t ∈ rest, hasK (m ++ [(s.id, s)]) t.id = false := by
      intro t ht
      rw [hasK_append_single]
      have h1 : hasK m t.id = false := hfresh t (List.mem_cons_of_mem _ ht)
      have h2 : (s.id == t.id) = false := by
        simp only [beq_eq_false_iff_ne, ne_eq]
        intro heq
        exact hsid (heq ▸ List.mem_map_of_mem (fun s => s.id) ht)
      simp [h1, h2]
    rw [ih _ hfresh' hnd', List.append_assoc]
    rfl

/-- A remote collection that always answers with a full page of fresh
ids (page `p` carries ids `(p-1)*perPage .. p*perPage - 1`) and a
fixed reported total. -/
def freshPagesOracle (perPage total : Nat) : Nat → Option Page :=
  fun page =>
    some ⟨(List.range perPage).map (fun i => ⟨(page - 1) * perPage + i, J.null⟩), total⟩

theorem fetchLoop_cap_aux (ver : Version) (perPage total : Nat) :
    ∀ (fuel page pf : Nat) (m : StoryMap),
      1 ≤ page →
      keysM m = List.range ((page - 1) * perPage) →
      (page - 1 + fuel) * perPage < total →
      (fetchLoop (freshPagesOracle perPage total) ver perPage fuel m page pf).requests =
          List.range' page fuel ∧
        (fetchLoop (freshPagesOracle perPage total) ver perPage fuel m page pf).pagesFetched
          = pf + fuel ∧
        (fetchLoop (freshPagesOracle perPage total) ver perPage fuel m page pf).hasMore
          = true ∧
        sizeM (fetchLoop (freshPagesOracle perPage total) ver perPage fuel m page pf).map
          = (page - 1 + fuel) * perPage := by
  intro fuel
  induction fuel with
  | zero =>
    intro page pf m hpage hkeys htot
    refine ⟨rfl, rfl, rfl, ?_⟩
    rw [show (fetchLoop (freshPagesOracle perPage total) ver perPage 0 m page pf).map = m
      from rfl]
    rw [sizeM_eq_keysM_length, hkeys]
    simp
  | succ fuel ih =>
    intro page pf m hpage hkeys htot
    have hbatch : ((List.range perPage).map
        (fun i => (⟨(page - 1) * perPage + i, J.null⟩ : Story))).map (fun s => s.id) =
        (List.range perPage).map ((page - 1) * perPage + ·) := by
      simp [List.map_map]
    have hfresh : ∀ s ∈ (List.range perPage).map
        (fun i => (⟨(page - 1) * perPage + i, J.null⟩ : Story)),
        hasK m s.id = false := by
      intro s hs
      simp only [List.mem_map, List.mem_range] at hs
      obtain ⟨i, hi, rfl⟩ := hs
      cases hk : hasK m ((page - 1) * perPage + i) with
      | false => rfl
      | true =>
        exfalso
        have hmem := (hasK_iff_mem_keysM _ _).mp hk
        rw [hkeys, List.mem_range] at hmem
        omega
    have hnd : (((List.range perPage).map
        (fun i => (⟨(page - 1) * perPage + i, J.null⟩ : Story))).map
          (fun s => s.id)).Nodup := by
      rw [hbatch]
      exact (List.nodup_range perPage).map (fun a b hab => by omega)
    have hins := usageInsert_fresh ver _ m hfresh hnd
    have hkeys' : keysM (usageInsert ver m ((List.range perPage).map
        (fun i => (⟨(page - 1) * perPage + i, J.null⟩ : Story)))) =
        List.range (page * perPage) := by
      rw [hins]
      have : keysM (m ++ ((List.range perPage).map
          (fun i => (⟨(page - 1) * perPage + i, J.null⟩ : Story))).map
            (fun s => ((fun s => s.id) s, s))) = keysM m ++
          ((List.range perPage).map
            (fun i => (⟨(page - 1) * perPage + i, J.null⟩ : Story))).map (fun s => s.id) := by
        simp [keysM, List.map_map]
      rw [show keysM (m ++ ((List.range perPage).map
          (fun i => (⟨(page - 1) * perPage + i, J.null⟩ : Story))).map
            (fun s => (s.id, s))) = keysM m ++
          ((List.range perPage).map
            (fun i => (⟨(page - 1) * perPage + i, J.null⟩ : Story))).map (fun s => s.id) by
        simp [keysM, List.map_map]]
      rw [hbatch, hkeys, ← List.range_add]
      congr 1
      have := hpage
      cases page with
      | zero => omega
      | succ p =>
        simp only [Nat.succ_sub_one]
        ring
    have hsize' : sizeM (usageInsert ver m ((List.range perPage).map
        (fun i => (⟨(page - 1) * perPage + i, J.null⟩ : Story)))) = page * perPage := by
      rw [sizeM_eq_keysM_length, hkeys']
      simp
    have hnostop : ¬(total ≤ sizeM (usageInsert ver m ((List.range perPage).map
        (fun i => (⟨(page - 1) * perPage + i, J.null⟩ : Story)))) ∨
        ((List.range perPage).map
          (fun i => (⟨(page - 1) * perPage + i, J.null⟩ : Story))).length < perPage) := by
      rw [hsize']
      push_neg
      constructor
      · have hle : page * perPage ≤ (page - 1 + (fuel + 1)) * perPage :=
          Nat.mul_le_mul_right _ (by omega)
        omega
      · simp
    have hihcond : (page + 1 - 1 + fuel) * perPage < total := by
      have : page + 1 - 1 + fuel = page - 1 + (fuel + 1) := by omega
      rw [this]
      exact htot
    have hrec := ih (page + 1) (pf + 1)
      (usageInsert ver m ((List.range perPage).map
        (fun i => (⟨(page - 1) * perPage + i, J.null⟩ : Story))))
      (by omega)
      (by rw [hkeys', Nat.add_sub_cancel])
      hihcond
    have hstep : fetchLoop (freshPagesOracle perPage total) ver perPage (fuel + 1) m page pf
        = ⟨(fetchLoop (freshPagesOracle perPage total) ver perPage fuel
              (usageInsert ver m ((List.range perPage).map
                (fun i => (⟨(page - 1) * perPage + i, J.null⟩ : Story)))) (page + 1)
              (pf + 1)).map,
            (fetchLoop (freshPagesOracle perPage total) ver perPage fuel
              (usageInsert ver m ((List.range perPage).map
                (fun i => (⟨(page - 1) * perPage + i, J.null⟩ : Story)))) (page + 1)
              (pf + 1)).pagesFetched,
            (fetchLoop (freshPagesOracle perPage total) ver perPage fuel
              (usageInsert ver m ((List.range perPage).map
                (fun i => (⟨(page - 1) * perPage + i, J.null⟩ : Story)))) (page + 1)
              (pf + 1)).hasMore,
            page :: (fetchLoop (freshPagesOracle perPage total) ver perPage fuel
              (usageInsert ver m ((List.range perPage).map
                (fun i => (⟨(page - 1) * perPage + i, J.null⟩ : Story)))) (page + 1)
              (pf + 1)).requests⟩ := by
      rw [show fetchLoop (freshPagesOracle perPage total) ver perPage (fuel + 1) m page pf =
        (match freshPagesOracle perPage total page with
        | none => (⟨m, pf, false, [page]⟩ : LoopResult)
        | some data =>
          let m' := usageInsert ver m data.stories
          let pf' := pf + 1
          if data.total ≤ sizeM m' ∨ data.stories.length < perPage then
            ⟨m', pf', false, [page]⟩
          else
            let r := fetchLoop (freshPagesOracle perPage total) ver perPage fuel m'
              (page + 1) pf'
            ⟨r.map, r.pagesFetched, r.hasMore, page :: r.requests⟩) from rfl]
      simp only [freshPagesOracle, hnostop, if_false]
    rw [hstep]
    refine ⟨?_, ?_, ?_, ?_⟩
    · rw [hrec.1, List.range'_succ]
    · rw [hrec.2.1]
      omega
    · exact hrec.2.2.1
    · rw [hrec.2.2.2]
      congr 1
      omega

/-- C4: when the remote total and full fresh pages would allow more
pages than the cap (`maxPages * perPage < total`), the fetch loop
issues exactly the page requests `1 .. maxPages` and stops, keeps all
`maxPages * perPage` records gathered so far, and exits in the
cap-with-more state that raises the limit flag; moreover, at the
tool's constants, the whole get-component-usage query then reports
`limitReached = true` inside its result payload (a field of the
returned value — nothing is thrown, the fetch phase of the model is a
total function into `UsageResult`). -/
theorem paginatedFetch_limit_reached (ver : Version) (perPage maxPages total : Nat)
    (hcap : maxPages * perPage < total) :
    (fetchLoop (freshPagesOracle perPage total) ver perPage maxPages [] 1 0).requests =
        List.range' 1 maxPages ∧
      (fetchLoop (freshPagesOracle perPage total) ver perPage maxPages
          [] 1 0).requests.length = maxPages ∧
      (fetchLoop (freshPagesOracle perPage total) ver perPage maxPages
          [] 1 0).pagesFetched = maxPages ∧
      sizeM (fetchLoop (freshPagesOracle perPage total) ver perPage maxPages [] 1 0).map
        = maxPages * perPage ∧
      (decide (maxPages ≤ (fetchLoop (freshPagesOracle perPage total) ver perPage maxPages
            [] 1 0).pagesFetched) &&
          (fetchLoop (freshPagesOracle perPage total) ver perPage maxPages [] 1 0).hasMore)
        = true ∧
      ∀ total2 : Nat, MAX_PAGES * PER_PAGE < total2 →
        (runComponentUsage (fun _ => freshPagesOracle PER_PAGE total2)).limitReached
          = true := by
  have haux := fetchLoop_cap_aux ver perPage total maxPages 1 0 []
    (by omega) (by simp [keysM]) (by simpa using hcap)
  have hpf : (fetchLoop (freshPagesOracle perPage total) ver perPage maxPages
      [] 1 0).pagesFetched = maxPages := by
    rw [haux.2.1]
    omega
  have hsz : sizeM (fetchLoop (freshPagesOracle perPage total) ver perPage maxPages
      [] 1 0).map = maxPages * perPage := by
    rw [haux.2.2.2]
    congr 1
    omega
  refine ⟨haux.1, by rw [haux.1]; simp, hpf, hsz, ?_, ?_⟩
  · rw [hpf, haux.2.2.1]
    simp
  · intro total2 h2
    have haux2 := fetchLoop_cap_aux Version.published PER_PAGE total2 MAX_PAGES 1 0 []
      (by omega) (by simp [keysM]) (by simpa using h2)
    simp only [runComponentUsage, runVersionLoop, versionLimit, Bool.or_eq_true,
      Bool.and_eq_true, decide_eq_true_eq]
    exact Or.inl ⟨by rw [haux2.2.1]; omega, haux2.2.2.1⟩

/-- Witness for C4 at the spec's pagination-cap scenario: `perPage = 2`,
`maxPages = 10`, remote `total = 50` with never-short pages — the loop
stops after exactly 10 page requests with 20 records and the limit
flag set. -/
theorem paginatedFetch_limit_reached_witness :
    10 * 2 < 50 ∧
      (fetchLoop (freshPagesOracle 2 50) Version.published 2 10 [] 1 0).requests.length
        = 10 ∧
      (fetchLoop (freshPagesOracle 2 50) Version.published 2 10 [] 1 0).pagesFetched = 10 ∧
      sizeM (fetchLoop (freshPagesOracle 2 50) Version.published 2 10 [] 1 0).map = 10 * 2 ∧
      (decide (10 ≤ (fetchLoop (freshPagesOracle 2 50) Version.published 2 10
            [] 1 0).pagesFetched) &&
          (fetchLoop (freshPagesOracle 2 50) Version.published 2 10 [] 1 0).hasMore)
        = true :=
  ⟨by decide,
    (paginatedFetch_limit_reached Version.published 2 10 50 (by decide)).2.1,
    (paginatedFetch_limit_reached Version.published 2 10 50 (by decide)).2.2.1,
    (paginatedFetch_limit_reached Version.published 2 10 50 (by decide)).2.2.2.1,
    (paginatedFetch_limit_reached Version.published 2 10 50 (by decide)).2.2.2.2.1⟩

/-- The condition under which the source's loop advances from `page`
to `page + 1`: the page request succeeds, the shared deduplicated
story map is — after inserting the page — still smaller than the
page's reported total, and the page was not short. -/
def advancesCondB (fetchPage : Nat → Option Page) (version : Version) (perPage : Nat)
    (m : StoryMap) (page : Nat) : Bool :=
  match fetchPage page with
  | none => false
  | some data =>
    decide (sizeM (usageInsert version m data.stories) < data.total) &&
      !(decide (data.stories.length < perPage))

theorem fetchLoop_requests_head (fetchPage : Nat → Option Page) (version : Version)
    (perPage fuel : Nat) (m : StoryMap) (page pf : Nat) :
    ∃ tail, (fetchLoop fetchPage version perPage (fuel + 1) m page pf).requests =
      page :: tail := by
  simp only [fetchLoop]
  cases fetchPage page with
  | none => exact ⟨[], rfl⟩
  | some data =>
    by_cases h : data.total ≤ sizeM (usageInsert version m data.stories) ∨
        data.stories.length < perPage
    · simp only [h, if_true]
      exact ⟨[], rfl⟩
    · simp only [h, if_false]
      exact ⟨_, rfl⟩

/-- One unfolding step of the loop. -/
theorem fetchLoop_succ (fetchPage : Nat → Option Page) (version : Version)
    (perPage fuel : Nat) (m : StoryMap) (page pf : Nat) :
    fetchLoop fetchPage version perPage (fuel + 1) m page pf =
      (match fetchPage page with
      | none => (⟨m, pf, false, [page]⟩ : LoopResult)
      | some data =>
        if data.total ≤ sizeM (usageInsert version m data.stories) ∨
            data.stories.length < perPage then
          ⟨usageInsert version m data.stories, pf + 1, false, [page]⟩
        else
          let r := fetchLoop fetchPage version perPage fuel
            (usageInsert version m data.stories) (page + 1) (pf + 1)
          ⟨r.map, r.pagesFetched, r.hasMore, page :: r.requests⟩) := rfl

/-- C2 (amended): the fetch loop of get-component-usage advances from
`page` to `page + 1` — i.e. its next two requests are `page` and
`page + 1` instead of stopping at `page` — exactly when the page
request succeeds with the shared deduplicated map still below the
page's reported total after insertion and a non-short page
(`length ≥ PER_PAGE`), for every reachable loop state and at least two
pages of cap budget left. -/
theorem get_component_usage_advance_characterization
    (fetchPage : Nat → Option Page) (version : Version) (perPage : Nat)
    (fuel : Nat) (m : StoryMap) (page pf : Nat) :
    (fetchLoop fetchPage version perPage (fuel + 2) m page pf).requests.take 2 =
      (if advancesCondB fetchPage version perPage m page = true
        then [page, page + 1] else [page]) := by
  rw [show fuel + 2 = (fuel + 1) + 1 from rfl, fetchLoop_succ]
  cases hfp : fetchPage page with
  | none => simp [advancesCondB, hfp]
  | some data =>
    simp only []
    by_cases h : data.total ≤ sizeM (usageInsert version m data.stories) ∨
        data.stories.length < perPage
    · have hcond : advancesCondB fetchPage version perPage m page = false := by
        simp only [advancesCondB, hfp, Bool.and_eq_false_iff]
        rcases h with h | h
        · exact Or.inl (by simp; omega)
        · exact Or.inr (by simp [h])
      simp [h, hcond]
    · have hcond : advancesCondB fetchPage version perPage m page = true := by
        push_neg at h
        simp only [advancesCondB, hfp, Bool.and_eq_true, decide_eq_true_eq]
        exact ⟨h.1, by simp [h.2]⟩
      obtain ⟨tail, htail⟩ := fetchLoop_requests_head fetchPage version perPage fuel
        (usageInsert version m data.stories) (page + 1) (pf + 1)
      simp only [h, if_false, hcond, if_true]
      rw [htail]
      rfl

/-- The per-version fetch loop as claim C2 words it (the spec-side
definition, for comparison with `fetchLoop`): request pages in order,
advancing only while the sum of records fetched so far FOR THAT
VERSION is below the origin-reported total AND the last page came back
exactly full; returns the requested page numbers, up to the same page
cap. -/
def specAdvanceFetchLoop (fetchPage : Nat → Option Page) (perPage : Nat) :
    Nat → Nat → Nat → List Nat
  | 0, _, _ => []
  | fuel + 1, page, fetchedSoFar =>
    match fetchPage page with
    | none => [page]
    | some data =>
      if fetchedSoFar + data.stories.length < data.total ∧
          data.stories.length = perPage then
        page :: specAdvanceFetchLoop fetchPage perPage fuel (page + 1)
          (fetchedSoFar + data.stories.length)
      else [page]

/-- A concrete remote behavior on which the code and claim C2's
per-version reading disagree: published page 1 holds 11 stories with
ids 100..110 (total 11), draft page 1 holds a full page of 100 stories
with ids 0..99 but reported draft total 105. -/
def cexOracle : Version → Nat → Option Page
  | Version.published, 1 =>
    some ⟨(List.range 11).map (fun i => ⟨100 + i, J.null⟩), 11⟩
  | Version.draft, 1 =>
    some ⟨(List.range 100).map (fun i => ⟨i, J.null⟩), 105⟩
  | _, _ => some ⟨[], 0⟩

set_option maxRecDepth 100000 in
set_option maxHeartbeats 1000000 in
/-- Counterexample to C2 as stated: after draft page 1 the records
fetched for the draft version number 100 — a full page, and fewer than
the draft total 105 — so the claim's rule advances to page 2 (the
spec-side loop requests pages 1 and 2); but the code stops, because
the shared deduplicated map also holds the 11 published-only stories,
bringing its size to 111 ≥ 105: the code's draft loop requests only
page 1. -/
theorem get_component_usage_advance_cex :
    (runComponentUsage cexOracle).draft.requests = [1] ∧
      specAdvanceFetchLoop (cexOracle Version.draft) PER_PAGE MAX_PAGES 1 0 = [1, 2] ∧
      ∃ data, cexOracle Version.draft 1 = some data ∧
        data.stories.length = PER_PAGE ∧ data.stories.length < data.total := by
  refine ⟨by decide, by decide, ⟨_, rfl, by decide, by decide⟩⟩

/-- A schema field descriptor: the validator only consults its
(truthiness-tested) `required` flag. -/
structure SchemaField where
  required : Bool
deriving Repr, DecidableEq

/-- A component schema: field name to descriptor, in declaration
order. -/
abbrev Schema := List (String × SchemaField)

/-- A record's content object: own fields in insertion order. -/
abbrev Content := List (String × J)

/-- JavaScript read `content[f]`: an absent field reads as
`undefined`. -/
def jsIndex (content : Content) (f : String) : J :=
  (lookupStr content f).getD J.undef

def isUndef : J → Bool
  | J.undef => true
  | _ => false

/-- Model of `schemaFields.hasOwnProperty(name)`. -/
def schemaHas (schema : Schema) (f : String) : Bool :=
  match schema with
  | [] => false
  | (k, _) :: rest => k == f || schemaHas rest f

/-- The diagnostic `type` strings used by the validator. -/
inductive DiagType where
  | missing_required : DiagType
  | extraneous_field : DiagType
deriving Repr, DecidableEq

/-- One validation diagnostic (`{ field, type, message }`; the message
string is determined by the other two fields and is not modelled). -/
structure Diagnostic where
  field : String
  dtype : DiagType
deriving Repr, DecidableEq

structure ValidationResult where
  isValid : Bool
  errors : List Diagnostic
  missingFields : List String
  extraneousFields : List String
deriving Repr, DecidableEq

/-- Embedding of the validation core of validate-story-content
(src/tools/stories.ts, duplicated in fetch-stories' validate_schema
stage and create-story's pre-creation validation): a first pass over
the schema fields in declaration order pushes a `missing_required`
diagnostic for every field declared required whose content value is
`undefined`; a second pass over the content's own fields pushes an
`extraneous_field` diagnostic for every name the schema does not
declare; `isValid` is `errors.length === 0`. -/
def validateContent (content : Content) (schema : Schema) : ValidationResult :=
  let missing := (schema.filter
    (fun kv => kv.2.required && isUndef (jsIndex content kv.1))).map (fun kv => kv.1)
  let extraneous := (content.filter
    (fun kv => !(schemaHas schema kv.1))).map (fun kv => kv.1)
  let errors :=
    missing.map (fun f => (⟨f, DiagType.missing_required⟩ : Diagnostic)) ++
      extraneous.map (fun f => (⟨f, DiagType.extraneous_field⟩ : Diagnostic))
  ⟨errors.length == 0, errors, missing, extraneous⟩

/-- C5: validation flags `missing_required` exactly for the schema
fields declared required whose content value is undefined, flags
`extraneous_field` exactly for the content fields the schema does not
declare, reports `isValid` true iff no diagnostic was emitted, and on
the spec's concrete example yields `missingFields = ["subtitle"]`,
`extraneousFields = ["extra"]`, `isValid = false`. -/
theorem schemaValidator_characterization :
    (∀ (content : Content) (schema : Schema) (f : String),
      (f ∈ (validateContent content schema).missingFields ↔
        ∃ d : SchemaField, (f, d) ∈ schema ∧ d.required = true ∧
          isUndef (jsIndex content f) = true) ∧
      ((⟨f, DiagType.missing_required⟩ : Diagnostic) ∈
          (validateContent content schema).errors ↔
        f ∈ (validateContent content schema).missingFields) ∧
      (f ∈ (validateContent content schema).extraneousFields ↔
        (∃ v : J, (f, v) ∈ content) ∧ schemaHas schema f = false) ∧
      ((⟨f, DiagType.extraneous_field⟩ : Diagnostic) ∈
          (validateContent content schema).errors ↔
        f ∈ (validateContent content schema).extraneousFields) ∧
      ((validateContent content schema).isValid = true ↔
        (validateContent content schema).errors = [])) ∧
    validateContent [("title", J.str "x"), ("extra", J.str "y")]
        [("title", ⟨true⟩), ("subtitle", ⟨true⟩)] =
      ⟨false, [⟨"subtitle", DiagType.missing_required⟩,
        ⟨"extra", DiagType.extraneous_field⟩], ["subtitle"], ["extra"]⟩ := by
  constructor
  · intro content schema f
    refine ⟨?_, ?_, ?_, ?_, ?_⟩
    · simp only [validateContent, List.mem_map, List.mem_filter, Bool.and_eq_true]
      constructor
      · rintro ⟨⟨g, d⟩, ⟨hmem, hreq, hundef⟩, rfl⟩
        exact ⟨d, hmem, hreq, hundef⟩
      · rintro ⟨d, hmem, hreq, hundef⟩
        exact ⟨(f, d), ⟨hmem, hreq, hundef⟩, rfl⟩
    · simp [validateContent, List.mem_map]
    · simp only [validateContent, List.mem_map, List.mem_filter, Bool.not_eq_true']
      constructor
      · rintro ⟨⟨g, v⟩, ⟨hmem, hhas⟩, rfl⟩
        exact ⟨⟨v, hmem⟩, hhas⟩
      · rintro ⟨⟨v, hmem⟩, hhas⟩
        exact ⟨(f, v), ⟨hmem, hhas⟩, rfl⟩
    · simp [validateContent, List.mem_map]
    · simp only [validateContent]
      constructor
      · intro h
        rwa [beq_iff_eq, List.length_eq_zero] at h
      · intro h
        rw [beq_iff_eq, List.length_eq_zero]
        exact h
  · decide

/-- The outcome of validate-story-content after the schema lookup: a
missing schema is its own constructor, not a validation result. -/
inductive ValidateOutcome where
  | schemaNotFound (componentName : String) : ValidateOutcome
  | validated (result : ValidationResult) : ValidateOutcome
deriving Repr, DecidableEq

/-- Embedding of validate-story-content's schema handling
(src/tools/stories.ts): `getComponentSchemaByName` returning nothing
short-circuits to an error payload naming the component; otherwise the
provided content is validated against the found schema. -/
def validateStoryContentTool (componentName : String) (schemaLookup : Option Schema)
    (content : Content) : ValidateOutcome :=
  match schemaLookup with
  | none => ValidateOutcome.schemaNotFound componentName
  | some schema => ValidateOutcome.validated (validateContent content schema)

/-- Test `story.content?.component === componentNameToValidate`. -/
def storyComponentIs (s : Story) (name : String) : Bool :=
  match s.content with
  | J.obj fields =>
    (match lookupStr fields "component" with
    | some (J.str c) => c == name
    | _ => false)
  | _ => false

/-- The own fields of a story's content object. -/
def contentFields (s : Story) : Content :=
  match s.content with
  | J.obj fields => fields
  | _ => []

/-- Embedding of fetch-stories' validate_schema stage: when the schema
lookup returns nothing, the `validation_schema_error` metadata flag is
set and every story passes through unannotated (validation skipped);
when a schema is found, the flag stays clear and each story whose
content component matches is annotated with its validation result. -/
def fetchValidateStage (componentName : String) (schemaLookup : Option Schema)
    (stories : List Story) : Bool × List (Story × Option ValidationResult) :=
  match schemaLookup with
  | none => (true, stories.map (fun s => (s, none)))
  | some schema =>
    (false, stories.map (fun s =>
      if storyComponentIs s componentName then
        (s, some (validateContent (contentFields s) schema))
      else (s, none)))

/-- C9: a failed schema lookup surfaces an explicit schema-not-found
condition — an error outcome in validate-story-content, the
`validation_schema_error` flag with validation skipped in
fetch-stories — and that outcome is a different constructor from every
validation result, in particular from one with zero diagnostics. -/
theorem schema_not_found_distinct :
    (∀ (name : String) (content : Content),
      validateStoryContentTool name none content =
        ValidateOutcome.schemaNotFound name) ∧
    (∀ (name : String) (schema : Schema) (content : Content),
      validateStoryContentTool name (some schema) content =
        ValidateOutcome.validated (validateContent content schema)) ∧
    (∀ (name : String) (r : ValidationResult),
      ValidateOutcome.schemaNotFound name ≠ ValidateOutcome.validated r) ∧
    (∀ (name : String) (stories : List Story),
      fetchValidateStage name none stories = (true, stories.map (fun s => (s, none)))) ∧
    (∀ (name : String) (schema : Schema) (stories : List Story),
      (fetchValidateStage name (some schema) stories).1 = false) :=
  ⟨fun _ _ => rfl, fun _ _ _ => rfl, fun _ _ h => ValidateOutcome.noConfusion h,
    fun _ _ => rfl, fun _ _ _ => rfl⟩

/-- A primitive JavaScript value (no object identity). -/
inductive HPrim where
  | pundef : HPrim
  | pnull : HPrim
  | pbool (b : Bool) : HPrim
  | pnum (n : Int) : HPrim
  | pstr (s : String) : HPrim
deriving Repr, DecidableEq

/-- A JavaScript value as held in a variable or field: a primitive or
a reference to a heap node — references carry the object identity the
source's visited set is keyed on. -/
inductive HVal where
  | prim (p : HPrim) : HVal
  | ref (a : Nat) : HVal
deriving Repr, DecidableEq

/-- A heap node: an array of values or an object with string fields. -/
inductive HNode where
  | harr (items : List HVal) : HNode
  | hobj (fields : List (String × HVal)) : HNode
deriving Repr, DecidableEq

/-- A heap: finitely many addressed nodes.  Self-referential
JavaScript values are heaps whose nodes contain `ref` cycles. -/
abbrev Heap := List (Nat × HNode)

def heapGet (H : Heap) (a : Nat) : Option HNode :=
  match H with
  | [] => none
  | (a', n) :: rest => if a' = a then some n else heapGet rest a

def lookupHV (l : List (String × HVal)) (k : String) : Option HVal :=
  match l with
  | [] => none
  | (k', v) :: rest => if k' = k then some v else lookupHV rest k

mutual
/-- Embedding of `findComponentInValue` (get-component-usage,
src/tools/components.ts) over the heap model, with `fuel` bounding the
JavaScript call-stack depth (each recursive call consumes one unit):
`none` means the evaluation exceeds that stack depth, so an evaluation
that is `none` for every fuel is a non-terminating (stack-overflowing)
run.  Primitives return false (falsy values via the `!value` guard,
truthy ones via the final fall-through); an array is `some`-scanned;
any other object returns true when its own `component` field holds
exactly the searched name and otherwise scans its field values.  There
is no visited set. -/
def findComponentInValueFuel (H : Heap) (cname : String) :
    Nat → HVal → Option Bool
  | 0, _ => none
  | _ + 1, HVal.prim _ => some false
  | fuel + 1, HVal.ref a =>
    match heapGet H a with
    | none => some false
    | some (HNode.harr items) => findSomeFuel H cname fuel items
    | some (HNode.hobj fields) =>
      if lookupHV fields "component" = some (HVal.prim (HPrim.pstr cname)) then
        some true
      else findSomeFuel H cname fuel (fields.map (fun kv => kv.2))

/-- Scan `value.some(item => findComponentInValue(item))` /
`Object.values(value).some(...)`: left-to-right with short-circuit;
a child that exceeds the stack propagates the overflow. -/
def findSomeFuel (H : Heap) (cname : String) (fuel : Nat) :
    List HVal → Option Bool
  | [] => some false
  | v :: rest =>
    match findComponentInValueFuel H cname fuel v with
    | none => none
    | some true => some true
    | some false => findSomeFuel H cname fuel rest
end

mutual
/-- Embedding of `recursiveDeepSearch` (search-content,
src/tools/components.ts) over the heap model, with the source's
visited set (it holds exactly the strict ancestors of the current
node: the source deletes the node on every exit path) and a stack-depth
fuel.  Strings match by case-insensitive containment, other primitives
are false, an already-visited reference is false (the cycle guard),
and containers scan their elements / own field values with the node
added to the visited set. -/
def recursiveDeepSearchFuel (H : Heap) (q : String) :
    Nat → List Nat → HVal → Option Bool
  | 0, _, _ => none
  | _ + 1, _, HVal.prim (HPrim.pstr s) => some (containsCI s q)
  | _ + 1, _, HVal.prim _ => some false
  | fuel + 1, visited, HVal.ref a =>
    if a ∈ visited then some false
    else
      match heapGet H a with
      | none => some false
      | some (HNode.harr items) => deepSomeFuel H q fuel (a :: visited) items
      | some (HNode.hobj fields) =>
        deepSomeFuel H q fuel (a :: visited) (fields.map (fun kv => kv.2))

/-- The element/field scan of `recursiveDeepSearch`, short-circuiting
on a match. -/
def deepSomeFuel (H : Heap) (q : String) (fuel : Nat) (visited : List Nat) :
    List HVal → Option Bool
  | [] => some false
  | v :: rest =>
    match recursiveDeepSearchFuel H q fuel visited v with
    | none => none
    | some true => some true
    | some false => deepSomeFuel H q fuel visited rest
end

/-- The canonical self-referential tree: one object whose `self` field
points back to itself. -/
def cyclicHeap : Heap := [(0, HNode.hobj [("self", HVal.ref 0)])]

/-- On the cyclic heap, the unguarded `findComponentInValue` exceeds
every finite stack depth. -/
theorem findComponentInValueFuel_cyclic_none :
    ∀ fuel : Nat,
      findComponentInValueFuel cyclicHeap "hero" fuel (HVal.ref 0) = none := by
  intro fuel
  induction fuel with
  | zero => simp [findComponentInValueFuel]
  | succ fuel ih =>
    have hget : heapGet cyclicHeap 0 = some (HNode.hobj [("self", HVal.ref 0)]) := rfl
    simp [findComponentInValueFuel, findSomeFuel, hget, lookupHV, ih]

def heapKeys (H : Heap) : List Nat := H.map (fun e => e.1)

/-- The number of heap addresses not yet on the visited set: the
recursion measure of the guarded traversal. -/
def unvisitedCount (H : Heap) (visited : List Nat) : Nat :=
  ((heapKeys H).filter (fun a => !(decide (a ∈ visited)))).length

theorem heapGet_some_mem {H : Heap} {a : Nat} {n : HNode} (h : heapGet H a = some n) :
    a ∈ heapKeys H := by
  induction H with
  | nil => simp [heapGet] at h
  | cons hd rest ih =>
    obtain ⟨a', n'⟩ := hd
    by_cases heq : a' = a
    · simp [heapKeys, heq]
    · simp only [heapGet, if_neg heq] at h
      simp only [heapKeys, List.map_cons, List.mem_cons]
      exact Or.inr (ih h)

theorem filter_unvisited_mono (visited : List Nat) (a : Nat) (keys : List Nat) :
    (keys.filter (fun k => !(decide (k ∈ a :: visited)))).length ≤
      (keys.filter (fun k => !(decide (k ∈ visited)))).length :=
  (List.monotone_filter_right keys
    (fun x hx => by
      simp only [Bool.not_eq_true', decide_eq_false_iff_not, List.mem_cons] at hx ⊢
      intro hmem
      exact hx (Or.inr hmem))).length_le

theorem unvisited_lt_cons {H : Heap} {visited : List Nat} {a : Nat}
    (hmem : a ∈ heapKeys H) (hnv : a ∉ visited) :
    unvisitedCount H (a :: visited) < unvisitedCount H visited := by
  unfold unvisitedCount
  generalize heapKeys H = keys at hmem
  induction keys with
  | nil => simp at hmem
  | cons k tail ih =>
    by_cases heq : k = a
    · subst heq
      have h1 : (!(decide (k ∈ k :: visited))) = false := by simp
      have h2 : (!(decide (k ∈ visited))) = true := by simp [hnv]
      simp only [List.filter_cons, h1, h2, Bool.false_eq_true, if_false, if_true,
        List.length_cons]
      have := filter_unvisited_mono visited k tail
      omega
    · have hconsmem : a ∈ tail := by
        rcases List.mem_cons.mp hmem with h | h
        · exact absurd h.symm heq
        · exact h
      have hsame : (!(decide (k ∈ a :: visited))) = (!(decide (k ∈ visited))) := by
        simp only [List.mem_cons]
        by_cases hk : k ∈ visited
        · simp [hk]
        · simp [hk, heq]
      rw [List.filter_cons, List.filter_cons, hsame]
      by_cases hk : (!(decide (k ∈ visited))) = true
      · simp only [hk, if_true, List.length_cons]
        have := ih hconsmem
        omega
      · have hk' : (!(decide (k ∈ visited))) = false := by
          cases hh : (!(decide (k ∈ visited)))
          · rfl
          · exact absurd hh hk
        simp only [hk', Bool.false_eq_true, if_false]
        exact ih hconsmem

theorem deepSomeFuel_isSome (H : Heap) (q : String) (fuel : Nat) (visited : List Nat) :
    ∀ l : List HVal,
      (∀ v ∈ l, (recursiveDeepSearchFuel H q fuel visited v).isSome = true) →
      (deepSomeFuel H q fuel visited l).isSome = true := by
  intro l
  induction l with
  | nil =>
    intro _
    simp [deepSomeFuel]
  | cons v rest ih =>
    intro h
    have hv := h v (List.mem_cons_self _ _)
    cases hfv : recursiveDeepSearchFuel H q fuel visited v with
    | none =>
      rw [hfv] at hv
      simp at hv
    | some b =>
      cases b with
      | true => simp [deepSomeFuel, hfv]
      | false =>
        simp only [deepSomeFuel, hfv]
        exact ih (fun w hw => h w (List.mem_cons_of_mem _ hw))

/-- With more fuel than there are unvisited heap addresses, the
guarded traversal always returns a boolean: the visited set gains a
fresh heap address at every descent, so the recursion depth is bounded
by the heap size. -/
theorem recursiveDeepSearchFuel_total (H : Heap) (q : String) :
    ∀ (fuel : Nat) (visited : List Nat) (v : HVal),
      unvisitedCount H visited < fuel →
      (recursiveDeepSearchFuel H q fuel visited v).isSome = true := by
  intro fuel
  induction fuel with
  | zero =>
    intro _ _ h
    omega
  | succ fuel ih =>
    intro visited v h
    cases v with
    | prim p => cases p <;> simp [recursiveDeepSearchFuel]
    | ref a =>
      by_cases hv : a ∈ visited
      · simp [recursiveDeepSearchFuel, hv]
      · cases hg : heapGet H a with
        | none => simp [recursiveDeepSearchFuel, hv, hg]
        | some node =>
          have hmem : a ∈ heapKeys H := heapGet_some_mem hg
          have hlt : unvisitedCount H (a :: visited) < fuel := by
            have := unvisited_lt_cons hmem hv
            omega
          cases node with
          | harr items =>
            simp only [recursiveDeepSearchFuel, hv, if_false, hg]
            exact deepSomeFuel_isSome H q fuel (a :: visited) items
              (fun w _ => ih (a :: visited) w hlt)
          | hobj fields =>
            simp only [recursiveDeepSearchFuel, hv, if_false, hg]
            exact deepSomeFuel_isSome H q fuel (a :: visited)
              (fields.map (fun kv => kv.2))
              (fun w _ => ih (a :: visited) w hlt)

/-- Counterexample to C1 as stated: on the self-referential tree
`{self: <itself>}`, the component-usage matcher `findComponentInValue`
— which carries no visited set — returns a boolean at no finite stack
depth: its recursion is unbounded (a stack overflow in JavaScript),
refuting the claim that both tree-search functions carry a cycle guard
and terminate on cyclic trees. -/
theorem findComponentInValue_cycle_cex :
    ¬ ∃ fuel : Nat,
      (findComponentInValueFuel cyclicHeap "hero" fuel (HVal.ref 0)).isSome = true := by
  rintro ⟨fuel, h⟩
  rw [findComponentInValueFuel_cyclic_none fuel] at h
  simp at h

/-- C1 (amended): only the deep text search `recursiveDeepSearch`
carries the visited-set cycle guard keyed on object identity: it
returns a boolean on every finite heap — self-referential or not —
whenever its stack budget exceeds the number of unvisited heap
addresses, and the canonical self-referential tree yields `false` for
the cyclic branch; `findComponentInValue` has no visited set and does
not terminate on that same tree at any stack depth. -/
theorem tree_search_cycle_safety :
    (∀ (H : Heap) (q : String) (v : HVal) (fuel : Nat),
      unvisitedCount H [] < fuel →
      (recursiveDeepSearchFuel H q fuel [] v).isSome = true) ∧
    recursiveDeepSearchFuel cyclicHeap "hero" 2 [] (HVal.ref 0) = some false ∧
    (∀ fuel : Nat,
      findComponentInValueFuel cyclicHeap "hero" fuel (HVal.ref 0) = none) := by
  refine ⟨fun H q v fuel h => recursiveDeepSearchFuel_total H q fuel [] v h, ?_,
    findComponentInValueFuel_cyclic_none⟩
  have hget : heapGet cyclicHeap 0 = some (HNode.hobj [("self", HVal.ref 0)]) := rfl
  simp [recursiveDeepSearchFuel, deepSomeFuel, hget]

/-- Witness for C1's amended claim: on the cyclic heap itself, the
fuel bound holds at 2 and the guarded search indeed returns a
boolean. -/
theorem tree_search_cycle_safety_witness :
    unvisitedCount cyclicHeap [] < 2 ∧
      (recursiveDeepSearchFuel cyclicHeap "hero" 2 [] (HVal.ref 0)).isSome = true :=
  ⟨by decide,
    tree_search_cycle_safety.1 cyclicHeap "hero" (HVal.ref 0) 2 (by decide)⟩
